import Mathlib

/-!
# Verification of the `rust_raycaster` geometry core (`src/main.rs`)

This file shallowly embeds the geometric and movement core of the raycaster:

* the `Ray::intersect` routine, the per-ray nearest-hit loop of `view`, and the
  luminosity formula are pure `f32` rational arithmetic; they are embedded
  computably over `ℚ`.  `f32` literals (`2.5`, `0.05`, `0.2`, `5000.0`) are read
  as the exact rationals they denote in the source text; rounding of `f32`
  arithmetic is outside the scope of this model.  The one place where IEEE
  behaviour matters to a claim — division by a zero determinant — is modelled
  explicitly by the type `F` of IEEE division results (`NaN`, `±∞`, finite).
* `Player` movement (`rotate`, `normalize`) and `Boundary` construction
  (`normalize`, `length`) involve `cos`/`sin`/`sqrt` and are embedded over `ℝ`.
  The IEEE `NaN` produced by normalizing a zero vector is modelled explicitly
  (type `FR`) for `Boundary::new`, where a claim is specifically about it.

Euclidean lengths that the source only ever compares with each other or stores
alongside the point they were computed from are modelled by their squares
(`normSq`); `Real.sqrt` is strictly monotone on nonnegatives, so the source's
comparison `(p - o).length() < (e - o).length()` holds exactly when
`normSq (p - o) < normSq (e - o)`, and equality of the squares is equality of
the lengths.
-/

/-! ## Real-valued vectors, the `Player`, and `Moves` (main.rs 13–27, 73–127) -/

/-- A 2D vector of `f32`, modelled over `ℝ` (`nannou::Vec2`). -/
@[ext]
structure Vec2R where
  x : ℝ
  y : ℝ

instance : Add Vec2R := ⟨fun a b => ⟨a.x + b.x, a.y + b.y⟩⟩

instance : Sub Vec2R := ⟨fun a b => ⟨a.x - b.x, a.y - b.y⟩⟩

instance : HMul Vec2R ℝ Vec2R := ⟨fun v c => ⟨v.x * c, v.y * c⟩⟩

instance : HMul ℝ Vec2R Vec2R := ⟨fun c v => ⟨c * v.x, c * v.y⟩⟩

/-- glam's `Vec2::perp`: rotation by 90 degrees counter-clockwise. -/
def Vec2R.perp (v : Vec2R) : Vec2R := ⟨-v.y, v.x⟩

/-- The squared Euclidean length of a vector. -/
def Vec2R.normSq (v : Vec2R) : ℝ := v.x ^ 2 + v.y ^ 2

/-- glam's `Vec2::length`: the Euclidean length. -/
noncomputable def Vec2R.length (v : Vec2R) : ℝ := Real.sqrt (v.x ^ 2 + v.y ^ 2)

/-- nannou's `Vec2Rotate::rotate(radians)`: counter-clockwise rotation
by the given angle. -/
noncomputable def Vec2R.rotate (v : Vec2R) (radians : ℝ) : Vec2R :=
  ⟨v.x * Real.cos radians - v.y * Real.sin radians,
   v.x * Real.sin radians + v.y * Real.cos radians⟩

/-- glam's `Vec2::normalize`, i.e. `self * (1 / self.length())`, on the branch
where the length is nonzero: componentwise division by the length.  On a zero
vector the `f32` source produces a `NaN` vector; that degenerate branch is
modelled faithfully by `normalizeF` below and is the subject of the
`Boundary::new` claim; every use of this plain version in a theorem carries a
nonzero-vector hypothesis. -/
noncomputable def Vec2R.normalize (v : Vec2R) : Vec2R :=
  ⟨v.x / v.length, v.y / v.length⟩

/-- `Player` (main.rs 13–16): position and look direction. -/
structure Player where
  pos : Vec2R
  look_dir : Vec2R

/-- `Player::update_player_pos` (main.rs 111–113): `self.pos += vel`. -/
def Player.update_player_pos (p : Player) (vel : Vec2R) : Player :=
  { p with pos := p.pos + vel }

/-- `Player::update_player_look_dir` (main.rs 115–118):
`self.look_dir = self.look_dir.rotate(d_theta)` followed by
`self.look_dir = self.look_dir.normalize()`. -/
noncomputable def Player.update_player_look_dir (p : Player) (d_theta : ℝ) : Player :=
  { p with look_dir := (p.look_dir.rotate d_theta).normalize }

/-- `Moves` (main.rs 18–25): the six boolean input intents. -/
structure Moves where
  up : Bool
  down : Bool
  left : Bool
  right : Bool
  clock : Bool
  anti_clock : Bool

/-- `Moves::update_player` (main.rs 73–98): sum the active contributions into
one translation vector and one angular delta, then apply them to the player
(`update_player_pos` first, `update_player_look_dir` second, exactly as the
source calls them). -/
noncomputable def Moves.update_player (m : Moves) (player : Player) : Player :=
  let update_vec : Vec2R := ⟨0, 0⟩
  let update_vec := if m.up then update_vec + player.look_dir * (2.5 : ℝ) else update_vec
  let update_vec := if m.down then update_vec - player.look_dir * (2.5 : ℝ) else update_vec
  let update_vec := if m.left then update_vec - player.look_dir.perp * (2.5 : ℝ) else update_vec
  let update_vec := if m.right then update_vec + player.look_dir.perp * (2.5 : ℝ) else update_vec
  let update_theta : ℝ := 0
  let update_theta := if m.clock then update_theta + (0.05 : ℝ) else update_theta
  let update_theta := if m.anti_clock then update_theta - (0.05 : ℝ) else update_theta
  (player.update_player_pos update_vec).update_player_look_dir update_theta

/-! ## Rational vectors, IEEE division results, `Boundary`, `Ray` (main.rs 27–49, 129–159) -/

/-- A 2D vector of `f32`, modelled over `ℚ` for the rational-arithmetic
intersection pipeline. -/
@[ext]
structure Vec2 where
  x : ℚ
  y : ℚ
deriving DecidableEq

instance : Add Vec2 := ⟨fun a b => ⟨a.x + b.x, a.y + b.y⟩⟩

instance : Sub Vec2 := ⟨fun a b => ⟨a.x - b.x, a.y - b.y⟩⟩

instance : HMul ℚ Vec2 Vec2 := ⟨fun c v => ⟨c * v.x, c * v.y⟩⟩

/-- Unfolding lemma for vector addition. -/
lemma Vec2.add_def (a b : Vec2) : a + b = ⟨a.x + b.x, a.y + b.y⟩ := rfl

/-- Unfolding lemma for vector subtraction. -/
lemma Vec2.sub_def (a b : Vec2) : a - b = ⟨a.x - b.x, a.y - b.y⟩ := rfl

/-- Unfolding lemma for scalar multiplication. -/
lemma Vec2.smul_def (c : ℚ) (v : Vec2) : c * v = ⟨c * v.x, c * v.y⟩ := rfl

/-- The squared Euclidean length.  The source's `Vec2::length()` is the square
root of this; the loop in `view` only ever compares two lengths, and
`Real.sqrt` is strictly monotone on nonnegatives, so comparisons of lengths are
modelled by comparisons of `normSq` (see the header comment). -/
def Vec2.normSq (v : Vec2) : ℚ := v.x ^ 2 + v.y ^ 2

/-- The result of an IEEE `f32` division of finite operands: `NaN`, `+∞`, `-∞`,
or a finite value.  Comparisons involving `NaN` are false; `+∞` is `≥ 0` but
not `<` any finite bound; `-∞` is not `≥ 0`. -/
inductive F where
  | nan : F
  | pinf : F
  | ninf : F
  | fin (q : ℚ) : F
deriving DecidableEq

/-- IEEE division of two finite values: `b ≠ 0` gives the exact quotient;
`0 / 0` is `NaN`; `a / 0` with `a ≠ 0` is `±∞` by the sign of `a`. -/
def F.div (a b : ℚ) : F :=
  if b = 0 then
    if a = 0 then F.nan else if 0 < a then F.pinf else F.ninf
  else F.fin (a / b)

/-- The comparison `x >= 0.0` on an IEEE division result (`NaN` compares
false). -/
def F.ge0 : F → Bool
  | F.nan => false
  | F.pinf => true
  | F.ninf => false
  | F.fin q => decide (0 ≤ q)

/-- The comparison `x < c` against a finite bound (`NaN` compares false,
`+∞` is not below any finite bound). -/
def F.ltQ : F → ℚ → Bool
  | F.nan, _ => false
  | F.pinf, _ => false
  | F.ninf, _ => true
  | F.fin q, c => decide (q < c)

/-- IEEE addition of a finite constant to a division result. -/
def F.addQ : F → ℚ → F
  | F.nan, _ => F.nan
  | F.pinf, _ => F.pinf
  | F.ninf, _ => F.ninf
  | F.fin q, c => F.fin (q + c)

/-- The finite payload of a division result; the default `0` is only ever
produced in contexts this file proves unreachable (the hit branch of
`intersect` forces `k` finite, see `intersect_some_iff` below). -/
def F.toQ : F → ℚ
  | F.fin q => q
  | _ => 0

/-- The luminosity expression `5000.0 / ((lambda / 5.0) * (lambda / 5.0)) + 0.2`
of `Ray::intersect` (main.rs 154), evaluated on the IEEE value of `lambda`.
For finite `lambda` this is IEEE division (in particular `lambda = 0` gives
`5000 / 0 = +∞`, then `+∞ + 0.2 = +∞`).  For `lambda = ±∞` the square is `+∞`
and `5000 / +∞ + 0.2 = 0.2`; for `NaN` it stays `NaN`.  (Both nonfinite cases
are unreachable from the hit branch, which forces `lambda` finite.) -/
def F.lum : F → F
  | F.fin q => F.addQ (F.div 5000 ((q / 5) * (q / 5))) (0.2 : ℚ)
  | F.pinf => F.fin (0.2 : ℚ)
  | F.ninf => F.fin (0.2 : ℚ)
  | F.nan => F.nan

/-- The partial order on IEEE values used to state luminosity monotonicity:
`NaN` is below or above nothing, `+∞` is the top of the non-`NaN` values,
`-∞` the bottom. -/
def F.le : F → F → Prop
  | F.nan, _ => False
  | _, F.nan => False
  | _, F.pinf => True
  | F.pinf, _ => False
  | F.ninf, _ => True
  | _, F.ninf => False
  | F.fin a, F.fin b => a ≤ b

instance (a b : F) : Decidable (F.le a b) := by
  cases a <;> cases b <;> simp [F.le] <;> infer_instance

/-- `Boundary` (main.rs 27–32): a segment with origin, direction and length.
The intersection claims quantify over arbitrary field values, so the fields
are plain rationals here; the constructor `Boundary::new`, whose direction can
be `NaN`, is modelled separately (`BoundaryR.new`) in the real-valued world
where its `normalize`/`length` computations live. -/
structure Boundary where
  origin : Vec2
  dir : Vec2
  length : ℚ
deriving DecidableEq

/-- `Ray` (main.rs 34–40).  The stored `length: Option<f32>` of the source is
the Euclidean length `(point - origin).length()`; it is modelled by its square
`lengthSq` (see the header comment). -/
structure Ray where
  origin : Vec2
  dir : Vec2
  end_ : Option Vec2
  lengthSq : Option ℚ
  luminosity : Option F
deriving DecidableEq

/-- `Ray::new` (main.rs 129–138).  The source computes
`origin = player.pos` and `dir = player.look_dir.rotate(d_theta).normalize()`;
that transcendental direction computation produces the `f32` pair supplied
here as `origin` / `dir`, and the three `Option` fields are `None` exactly as
the source sets them. -/
def Ray.new (origin dir : Vec2) : Ray :=
  ⟨origin, dir, none, none, none⟩

/-- The local `determinant` of `Ray::intersect` (main.rs 141). -/
def Ray.determinant (r : Ray) (b : Boundary) : ℚ :=
  r.dir.x * b.dir.y - b.dir.x * r.dir.y

/-- The numerator of the local `k` of `Ray::intersect` (main.rs 142–143). -/
def Ray.kNum (r : Ray) (b : Boundary) : ℚ :=
  r.dir.x * (r.origin.y - b.origin.y) - r.dir.y * (r.origin.x - b.origin.x)

/-- The numerator of the local `lambda` of `Ray::intersect` (main.rs 145–146). -/
def Ray.lambdaNum (r : Ray) (b : Boundary) : ℚ :=
  b.dir.x * (r.origin.y - b.origin.y) - b.dir.y * (r.origin.x - b.origin.x)

/-- The Cramer parameter `k` along the boundary, as an exact rational; it is
the value of the source's `k` whenever the determinant is nonzero. -/
def Ray.kParam (r : Ray) (b : Boundary) : ℚ :=
  r.kNum b / r.determinant b

/-- The Cramer parameter `lambda` along the ray, as an exact rational; it is
the value of the source's `lambda` whenever the determinant is nonzero. -/
def Ray.lambdaParam (r : Ray) (b : Boundary) : ℚ :=
  r.lambdaNum b / r.determinant b

/-- `Ray::intersect` (main.rs 140–159).  The two divisions are IEEE divisions
(type `F`); the hit test is the source's
`lambda >= 0.0 && k >= 0.0 && k < boundary.length` with IEEE comparison
semantics; on a hit the point is `boundary.origin + k * boundary.dir` (the hit
test forces `k` finite, so `F.toQ` reads its exact value) and the luminosity is
the source's formula on `lambda`.  The `player` argument is taken and ignored,
exactly as in the source. -/
def Ray.intersect (r : Ray) (b : Boundary) (player : Player) : Option (Vec2 × F) :=
  let k := F.div (r.kNum b) (r.determinant b)
  let lambda := F.div (r.lambdaNum b) (r.determinant b)
  if lambda.ge0 && k.ge0 && k.ltQ b.length then
    some (b.origin + k.toQ * b.dir, lambda.lum)
  else
    none

/-! ## The per-ray nearest-hit loop of `view` (main.rs 279–298) -/

/-- One iteration of the `for boundary in &model.boundaries` loop in `view`
(main.rs 281–298): test one boundary; on a hit, record it if the ray has no
recorded end yet, or if the new point is strictly closer to the ray origin
than the recorded end (the source compares Euclidean lengths; modelled by
their squares, see the header comment). -/
def viewRayStep (player : Player) (ray : Ray) (boundary : Boundary) : Ray :=
  match ray.intersect boundary player with
  | some (point, luminosity) =>
    match ray.end_ with
    | some e =>
      if Vec2.normSq (point - ray.origin) < Vec2.normSq (e - ray.origin) then
        { ray with
          end_ := some point
          lengthSq := some (Vec2.normSq (point - ray.origin))
          luminosity := some luminosity }
      else ray
    | none =>
      { ray with
        end_ := some point
        lengthSq := some (Vec2.normSq (point - ray.origin))
        luminosity := some luminosity }
  | none => ray

/-- The whole per-ray loop of `view`: fold `viewRayStep` over the boundary
list. -/
def viewRayLoop (player : Player) (ray : Ray) (boundaries : List Boundary) : Ray :=
  boundaries.foldl (viewRayStep player) ray

/-- The list of valid hit points a given ray finds against a list of
boundaries (the points of the `Some` results of `Ray::intersect`).  This is a
specification-side notion used to state nearest-hit claims. -/
def rayHits (player : Player) (ray : Ray) (boundaries : List Boundary) : List Vec2 :=
  boundaries.filterMap (fun b => (ray.intersect b player).map Prod.fst)

/-- Consistency of a ray's three optional fields (the invariant of claim C10):
either all three are unset, or all three are set and the recorded (squared)
length is the (squared) Euclidean distance from the origin to the recorded
end. -/
def Ray.Consistent (r : Ray) : Prop :=
  (r.end_ = none ∧ r.lengthSq = none ∧ r.luminosity = none) ∨
  (∃ p lum, r.end_ = some p ∧ r.luminosity = some lum ∧
    r.lengthSq = some (Vec2.normSq (p - r.origin)))

/-! ## `Boundary::new` and `Boundary::from_rect` (main.rs 181–211) -/

/-- An `f32` value that may be the `NaN` or `±∞` produced by IEEE division,
with a real payload for the finite case. -/
inductive FR where
  | nan : FR
  | pinf : FR
  | ninf : FR
  | fin (x : ℝ) : FR

/-- IEEE division of two finite real-modelled `f32` values (same rules as
`F.div`). -/
noncomputable def FR.div (a b : ℝ) : FR :=
  if b = 0 then
    if a = 0 then FR.nan else if 0 < a then FR.pinf else FR.ninf
  else FR.fin (a / b)

/-- A vector whose components may be IEEE special values. -/
structure FVec2 where
  x : FR
  y : FR

/-- glam's `Vec2::normalize` with its IEEE behaviour: `self * (1/length)`,
i.e. componentwise division of the vector by its Euclidean length; a
zero-length vector yields `NaN` components. -/
noncomputable def normalizeF (v : Vec2R) : FVec2 :=
  ⟨FR.div v.x v.length, FR.div v.y v.length⟩

/-- The boundary record as built by `Boundary::new`, whose direction
components can be `NaN`. -/
structure BoundaryR where
  origin : Vec2R
  dir : FVec2
  length : ℝ

/-- `Boundary::new` (main.rs 182–188): `origin = start`,
`dir = (end - start).normalize()`, `length = (end - start).length()`.  The
source performs no check whatsoever on its arguments. -/
noncomputable def BoundaryR.new (start stop : Vec2R) : BoundaryR :=
  { origin := start
    dir := normalizeF (stop - start)
    length := (stop - start).length }

/-- A `Range<f32>` as stored in nannou's `Rect` (fields `start` and `end`;
`end` is a Lean keyword, written `end_`). -/
structure RangeR where
  start : ℝ
  end_ : ℝ

/-- nannou's `Rect`, as used by `Boundary::from_rect`: an x-range and a
y-range.  In nannou the y axis points up: `Rect::bottom()` is `y.start` and
`Rect::top()` is `y.end`. -/
structure RectR where
  x : RangeR
  y : RangeR

/-- `Boundary::from_rect` (main.rs 190–211): the four pushed boundaries, in
source order. -/
noncomputable def BoundaryR.from_rect (rect : RectR) : List BoundaryR :=
  [BoundaryR.new ⟨rect.x.start, rect.y.start⟩ ⟨rect.x.start, rect.y.end_⟩,
   BoundaryR.new ⟨rect.x.start, rect.y.start⟩ ⟨rect.x.end_, rect.y.start⟩,
   BoundaryR.new ⟨rect.x.end_, rect.y.end_⟩ ⟨rect.x.end_, rect.y.start⟩,
   BoundaryR.new ⟨rect.x.end_, rect.y.end_⟩ ⟨rect.x.start, rect.y.end_⟩]

/-- The far endpoint `origin + length * dir` of a constructed boundary, when
its direction is finite. -/
noncomputable def BoundaryR.endpoint : BoundaryR → Option Vec2R
  | ⟨o, ⟨FR.fin dx, FR.fin dy⟩, len⟩ => some (o + len * (⟨dx, dy⟩ : Vec2R))
  | _ => none

/-- A constructed boundary spans the undirected segment between `p` and `q`:
its origin and far endpoint are `p` and `q` in either order. -/
noncomputable def BoundaryR.SpansSeg (b : BoundaryR) (p q : Vec2R) : Prop :=
  (b.origin = p ∧ b.endpoint = some q) ∨ (b.origin = q ∧ b.endpoint = some p)

/-- The order claimed by the specification for `from_rect` (claim C5), read
with the geometric convention of the host framework (nannou's y axis points
up, so the top edge is the maximal-y edge): the result is exactly four
boundaries spanning, in order, the left, top, right and bottom edges of the
rectangle.  This definition follows the specification's words; the code is
compared against it. -/
noncomputable def FromRectOrderLTRB (rect : RectR) : Prop :=
  ∃ b0 b1 b2 b3, BoundaryR.from_rect rect = [b0, b1, b2, b3] ∧
    b0.SpansSeg ⟨rect.x.start, rect.y.start⟩ ⟨rect.x.start, rect.y.end_⟩ ∧
    b1.SpansSeg ⟨rect.x.start, rect.y.end_⟩ ⟨rect.x.end_, rect.y.end_⟩ ∧
    b2.SpansSeg ⟨rect.x.end_, rect.y.start⟩ ⟨rect.x.end_, rect.y.end_⟩ ∧
    b3.SpansSeg ⟨rect.x.start, rect.y.start⟩ ⟨rect.x.end_, rect.y.start⟩

/-! ## Helper lemmas about `Ray::intersect` -/

/-- With a zero determinant both divisions produce IEEE special values, and
every one of them fails the hit test, so `intersect` returns `None`. -/
lemma intersect_none_of_det_eq_zero (r : Ray) (b : Boundary) (player : Player)
    (h : r.determinant b = 0) : r.intersect b player = none := by
  unfold Ray.intersect
  rw [h]
  by_cases hk : r.kNum b = 0
  · by_cases hl : r.lambdaNum b = 0
    · simp [F.div, hk, hl, F.ge0]
    · rcases lt_trichotomy (r.lambdaNum b) 0 with h1 | h1 | h1
      · simp [F.div, hk, hl, F.ge0, not_lt.mpr h1.le, h1.ne]
      · exact absurd h1 hl
      · simp [F.div, hk, hl, F.ge0, h1]
  · rcases lt_trichotomy (r.kNum b) 0 with h1 | h1 | h1
    · simp [F.div, hk, F.ge0, F.ltQ, not_lt.mpr h1.le, h1.ne]
    · exact absurd h1 hk
    · simp [F.div, hk, F.ge0, F.ltQ, h1]

/-- With a nonzero determinant the two divisions take their exact rational
values and `intersect` reduces to the rational Cramer test. -/
lemma intersect_of_det_ne_zero (r : Ray) (b : Boundary) (player : Player)
    (h : r.determinant b ≠ 0) :
    r.intersect b player =
      if 0 ≤ r.lambdaParam b ∧ 0 ≤ r.kParam b ∧ r.kParam b < b.length then
        some (b.origin + r.kParam b * b.dir, (F.fin (r.lambdaParam b)).lum)
      else none := by
  unfold Ray.intersect
  simp only [F.div, if_neg h, F.ge0, F.ltQ, F.toQ, Ray.kParam, Ray.lambdaParam,
    Bool.and_eq_true, decide_eq_true_eq]
  exact if_congr and_assoc rfl rfl

/-- The complete characterisation of a hit: `intersect` returns `Some` exactly
when the determinant is nonzero (the Cramer parameters exist) and the exact
rational parameters pass the source's range test; the reported point and
luminosity are then determined by `k` and `lambda`. -/
lemma intersect_some_iff (r : Ray) (b : Boundary) (player : Player)
    (pt : Vec2) (l : F) :
    r.intersect b player = some (pt, l) ↔
      r.determinant b ≠ 0 ∧ 0 ≤ r.lambdaParam b ∧ 0 ≤ r.kParam b ∧
        r.kParam b < b.length ∧ pt = b.origin + r.kParam b * b.dir ∧
        l = (F.fin (r.lambdaParam b)).lum := by
  by_cases h : r.determinant b = 0
  · simp [intersect_none_of_det_eq_zero r b player h, h]
  · rw [intersect_of_det_ne_zero r b player h]
    by_cases hc : 0 ≤ r.lambdaParam b ∧ 0 ≤ r.kParam b ∧ r.kParam b < b.length
    · obtain ⟨h1, h2, h3⟩ := hc
      simp only [if_pos (⟨h1, h2, h3⟩ :
        0 ≤ r.lambdaParam b ∧ 0 ≤ r.kParam b ∧ r.kParam b < b.length),
        Option.some.injEq, Prod.mk.injEq]
      constructor
      · rintro ⟨hpt, hl⟩
        exact ⟨h, h1, h2, h3, hpt.symm, hl.symm⟩
      · rintro ⟨-, -, -, -, hpt, hl⟩
        exact ⟨hpt.symm, hl.symm⟩
    · rw [if_neg hc]
      simp only [false_iff, reduceCtorEq]
      rintro ⟨-, h1, h2, h3, -, -⟩
      exact hc ⟨h1, h2, h3⟩

/-- On a hit the reported point also lies on the ray:
`pt = ray.origin + lambda * ray.dir`.  This is the exactness of Cramer's
rule: with a nonzero determinant the two parametrisations meet at the same
point. -/
lemma hit_point_on_ray (r : Ray) (b : Boundary) (player : Player)
    (pt : Vec2) (l : F) (h : r.intersect b player = some (pt, l)) :
    pt = r.origin + r.lambdaParam b * r.dir := by
  obtain ⟨hd, -, -, -, hpt, -⟩ := (intersect_some_iff r b player pt l).mp h
  subst hpt
  have hx : b.origin.x + r.kParam b * b.dir.x
      = r.origin.x + r.lambdaParam b * r.dir.x := by
    unfold Ray.kParam Ray.lambdaParam at *
    field_simp
    unfold Ray.kNum Ray.lambdaNum Ray.determinant at *
    ring
  have hy : b.origin.y + r.kParam b * b.dir.y
      = r.origin.y + r.lambdaParam b * r.dir.y := by
    unfold Ray.kParam Ray.lambdaParam at *
    field_simp
    unfold Ray.kNum Ray.lambdaNum Ray.determinant at *
    ring
  show Vec2.mk _ _ = Vec2.mk _ _
  rw [Vec2.mk.injEq]
  exact ⟨hx, hy⟩

/-- When the argument is positive the luminosity is the finite value of the
formula. -/
lemma F.lum_fin_pos {l : ℚ} (h : 0 < l) :
    (F.fin l).lum = F.fin (5000 / ((l / 5) * (l / 5)) + (0.2 : ℚ)) := by
  have hne : (l / 5) * (l / 5) ≠ 0 := by positivity
  simp [F.lum, F.div, hne, F.addQ]

/-- At `lambda = 0` the formula divides `5000` by `0`, giving `+∞`. -/
lemma F.lum_fin_zero : (F.fin (0 : ℚ)).lum = F.pinf := by
  norm_num [F.lum, F.div, F.addQ]

/-! ## Claims about `Ray::intersect` (C1, C3, C9) -/

/-- Claim C1: for every ray and boundary, `Ray::intersect` returns a hit
exactly when the Cramer parameters exist (nonzero determinant) and satisfy
`lambda >= 0`, `0 <= k` and `k < boundary.length`, and on a hit the reported
point is `boundary.origin + k * boundary.dir` and the luminosity is the
formula evaluated at `lambda`; otherwise it returns no-hit. -/
theorem intersect_hit_iff_cramer (r : Ray) (b : Boundary) (player : Player)
    (pt : Vec2) (l : F) :
    r.intersect b player = some (pt, l) ↔
      r.determinant b ≠ 0 ∧ 0 ≤ r.lambdaParam b ∧ 0 ≤ r.kParam b ∧
        r.kParam b < b.length ∧ pt = b.origin + r.kParam b * b.dir ∧
        l = (F.fin (r.lambdaParam b)).lum :=
  intersect_some_iff r b player pt l

/-- Claim C3: when the determinant is exactly zero (parallel directions) the
IEEE divisions produce `NaN` or `±∞`, every such value fails the hit test,
and `intersect` returns no-hit; the division never aborts the (total)
function. -/
theorem intersect_parallel_no_hit (r : Ray) (b : Boundary) (player : Player)
    (h : r.determinant b = 0) : r.intersect b player = none :=
  intersect_none_of_det_eq_zero r b player h

/-- Witness for C3: a concrete ray with direction `(1,1)` against a boundary
with the parallel direction `(2,2)` has determinant `0` and no hit. -/
theorem intersect_parallel_no_hit_witness :
    Ray.determinant ⟨⟨0, 0⟩, ⟨1, 1⟩, none, none, none⟩ ⟨⟨3, 0⟩, ⟨2, 2⟩, 5⟩ = 0 ∧
    Ray.intersect ⟨⟨0, 0⟩, ⟨1, 1⟩, none, none, none⟩ ⟨⟨3, 0⟩, ⟨2, 2⟩, 5⟩ ⟨⟨0, 0⟩, ⟨1, 0⟩⟩ = none :=
  ⟨by norm_num [Ray.determinant],
   intersect_parallel_no_hit _ _ _ (by norm_num [Ray.determinant])⟩

/-- Claim C9: `Ray::intersect` takes its `player` argument but never reads it,
so its result is the same for any two player values. -/
theorem intersect_ignores_player (r : Ray) (b : Boundary) (p1 p2 : Player) :
    r.intersect b p1 = r.intersect b p2 := rfl

/-! ## Claim C8: the luminosity formula -/

/-- Claim C8: the luminosity reported on a valid hit equals
`5000 / (lambda/5)^2 + 0.2`; as a function of `lambda` over the valid range
`lambda >= 0` it is monotonically non-increasing (in the IEEE order, where the
`+∞` produced at `lambda = 0` is the top), and it tends to `0.2` from above as
`lambda` tends to infinity. -/
theorem luminosity_formula_monotone_limit :
    (∀ (r : Ray) (b : Boundary) (player : Player) (pt : Vec2) (l : F),
        r.intersect b player = some (pt, l) →
          l = F.addQ (F.div 5000 ((r.lambdaParam b / 5) ^ 2)) (0.2 : ℚ)) ∧
    (∀ l1 l2 : ℚ, 0 ≤ l1 → l1 ≤ l2 → ((F.fin l2).lum).le ((F.fin l1).lum)) ∧
    (∀ ε : ℚ, 0 < ε → ∃ L : ℚ, ∀ l : ℚ, L ≤ l →
        ∃ q : ℚ, (F.fin l).lum = F.fin q ∧ (0.2 : ℚ) < q ∧ q < (0.2 : ℚ) + ε) := by
  refine ⟨?_, ?_, ?_⟩
  · intro r b player pt l h
    obtain ⟨-, -, -, -, -, hl⟩ := (intersect_some_iff r b player pt l).mp h
    rw [hl, pow_two]
    rfl
  · intro l1 l2 h0 h12
    by_cases h1 : l1 = 0
    · subst h1
      rw [F.lum_fin_zero]
      by_cases h2 : l2 = 0
      · subst h2
        rw [F.lum_fin_zero]
        trivial
      · have hpos : 0 < l2 := lt_of_le_of_ne h12 (Ne.symm h2)
        rw [F.lum_fin_pos hpos]
        trivial
    · have h1p : 0 < l1 := lt_of_le_of_ne h0 (Ne.symm h1)
      have h2p : 0 < l2 := lt_of_lt_of_le h1p h12
      rw [F.lum_fin_pos h1p, F.lum_fin_pos h2p]
      show (5000 / ((l2 / 5) * (l2 / 5)) + (0.2 : ℚ)) ≤ 5000 / ((l1 / 5) * (l1 / 5)) + (0.2 : ℚ)
      have hd : 5000 / ((l2 / 5) * (l2 / 5)) ≤ 5000 / ((l1 / 5) * (l1 / 5)) := by
        rw [div_le_div_iff₀ (by positivity) (by positivity)]
        nlinarith [mul_le_mul h12 h12 h0 (le_of_lt h2p)]
      linarith
  · intro ε hε
    refine ⟨125000 / ε + 1, ?_⟩
    intro l hl
    have hc : 0 < 125000 / ε := by positivity
    have hl1 : (1 : ℚ) ≤ l := le_trans (by linarith) hl
    have hlpos : 0 < l := lt_of_lt_of_le one_pos hl1
    refine ⟨5000 / ((l / 5) * (l / 5)) + (0.2 : ℚ), F.lum_fin_pos hlpos, ?_, ?_⟩
    · have : 0 < 5000 / ((l / 5) * (l / 5)) := by positivity
      linarith
    · have hq : 5000 / ((l / 5) * (l / 5)) = 125000 / (l * l) := by
        field_simp
        ring
      have h3 : l ≤ l * l := le_mul_of_one_le_left hlpos.le hl1
      have hll : 125000 / ε < l * l := by linarith
      have h2 : 125000 / (l * l) < ε := by
        rw [div_lt_iff₀ (by positivity)]
        calc (125000 : ℚ) = ε * (125000 / ε) := by field_simp
          _ < ε * (l * l) := by exact (mul_lt_mul_left hε).mpr hll
      rw [hq]
      linarith

/-- Witness for C8: a concrete hit at `lambda = 5` has luminosity
`5000.2`; the monotonicity instance at `1 ≤ 2` and the limit instance at
`ε = 1` hold. -/
theorem luminosity_formula_monotone_limit_witness :
    F.fin (5000.2 : ℚ) =
      F.addQ (F.div 5000
        ((Ray.lambdaParam ⟨⟨0, 0⟩, ⟨1, 0⟩, none, none, none⟩ ⟨⟨5, -1⟩, ⟨0, 1⟩, 3⟩ / 5) ^ 2))
        (0.2 : ℚ) ∧
    ((F.fin (2 : ℚ)).lum).le ((F.fin (1 : ℚ)).lum) ∧
    (∃ L : ℚ, ∀ l : ℚ, L ≤ l →
        ∃ q : ℚ, (F.fin l).lum = F.fin q ∧ (0.2 : ℚ) < q ∧ q < (0.2 : ℚ) + 1) :=
  ⟨luminosity_formula_monotone_limit.1 ⟨⟨0, 0⟩, ⟨1, 0⟩, none, none, none⟩
      ⟨⟨5, -1⟩, ⟨0, 1⟩, 3⟩ ⟨⟨0, 0⟩, ⟨1, 0⟩⟩ ⟨5, 0⟩ (F.fin (5000.2 : ℚ))
      (by norm_num [Ray.intersect, Ray.kNum, Ray.lambdaNum, Ray.determinant, F.div,
        F.ge0, F.ltQ, F.toQ, F.lum, F.addQ, Vec2.add_def, Vec2.smul_def]),
   luminosity_formula_monotone_limit.2.1 1 2 (by norm_num) (by norm_num),
   luminosity_formula_monotone_limit.2.2 1 (by norm_num)⟩

/-! ## Helper lemmas for the real-valued world -/

/-- Unfolding lemma for real vector addition. -/
lemma Vec2R.add_comps (a b : Vec2R) : a + b = ⟨a.x + b.x, a.y + b.y⟩ := rfl

/-- Unfolding lemma for real vector subtraction. -/
lemma Vec2R.sub_comps (a b : Vec2R) : a - b = ⟨a.x - b.x, a.y - b.y⟩ := rfl

/-- Unfolding lemma for vector-scalar multiplication. -/
lemma Vec2R.mul_scalar_def (v : Vec2R) (c : ℝ) : v * c = ⟨v.x * c, v.y * c⟩ := rfl

/-- Unfolding lemma for scalar-vector multiplication. -/
lemma Vec2R.scalar_mul_def (c : ℝ) (v : Vec2R) : c * v = ⟨c * v.x, c * v.y⟩ := rfl

/-- A vector has length zero exactly when both components vanish. -/
lemma Vec2R.length_eq_zero_iff (v : Vec2R) : v.length = 0 ↔ v.x = 0 ∧ v.y = 0 := by
  unfold Vec2R.length
  rw [Real.sqrt_eq_zero (by positivity)]
  constructor
  · intro h
    have hx : v.x ^ 2 = 0 := by linarith [sq_nonneg v.x, sq_nonneg v.y]
    have hy : v.y ^ 2 = 0 := by linarith [sq_nonneg v.x, sq_nonneg v.y]
    exact ⟨sq_eq_zero_iff.mp hx, sq_eq_zero_iff.mp hy⟩
  · rintro ⟨hx, hy⟩
    rw [hx, hy]
    ring

/-- Rotation preserves the Euclidean length (the rotation matrix is
orthogonal). -/
lemma Vec2R.length_rotate (v : Vec2R) (θ : ℝ) : (v.rotate θ).length = v.length := by
  show Real.sqrt ((v.x * Real.cos θ - v.y * Real.sin θ) ^ 2 +
      (v.x * Real.sin θ + v.y * Real.cos θ) ^ 2) = Real.sqrt (v.x ^ 2 + v.y ^ 2)
  congr 1
  have h := Real.sin_sq_add_cos_sq θ
  linear_combination (v.x ^ 2 + v.y ^ 2) * h

/-- Normalizing a vector of nonzero length yields a unit vector. -/
lemma Vec2R.length_normalize (v : Vec2R) (h : v.length ≠ 0) :
    v.normalize.length = 1 := by
  have hN : v.x ^ 2 + v.y ^ 2 ≠ 0 := by
    intro h0
    apply h
    unfold Vec2R.length
    rw [h0, Real.sqrt_zero]
  have hNnn : (0 : ℝ) ≤ v.x ^ 2 + v.y ^ 2 := by positivity
  have hL : v.length ^ 2 = v.x ^ 2 + v.y ^ 2 := Real.sq_sqrt hNnn
  show Real.sqrt ((v.x / v.length) ^ 2 + (v.y / v.length) ^ 2) = 1
  rw [div_pow, div_pow, div_add_div_same, hL, div_self hN, Real.sqrt_one]

/-- Rotation by the zero angle is the identity. -/
lemma Vec2R.rotate_zero (v : Vec2R) : v.rotate 0 = v := by
  unfold Vec2R.rotate
  rw [Real.cos_zero, Real.sin_zero]
  ext <;> simp

/-- Normalizing a unit vector leaves it unchanged. -/
lemma Vec2R.normalize_of_length_one (v : Vec2R) (h : v.length = 1) :
    v.normalize = v := by
  unfold Vec2R.normalize
  rw [h]
  ext <;> simp

/-- The unit vector along the x axis has length one. -/
lemma length_unit_x : Vec2R.length ⟨1, 0⟩ = 1 := by
  unfold Vec2R.length
  norm_num [Real.sqrt_one]

/-! ## Claim C6: the look direction stays a unit vector -/

/-- Claim C6: starting from a unit `look_dir`, any finite sequence of
`update_player_look_dir` calls (arbitrary angular deltas) keeps `look_dir` a
unit vector, because every update renormalizes after rotating.  In this exact
model the magnitude is exactly `1` after each update (instantiating the
arbitrary delta list with any prefix gives the magnitude after each step). -/
theorem look_dir_unit_invariant (p : Player) (h : p.look_dir.length = 1)
    (ds : List ℝ) :
    ((ds.foldl (fun pl θ => pl.update_player_look_dir θ) p).look_dir).length = 1 := by
  induction ds generalizing p with
  | nil => exact h
  | cons θ ds ih =>
    simp only [List.foldl_cons]
    apply ih
    show ((p.look_dir.rotate θ).normalize).length = 1
    apply Vec2R.length_normalize
    rw [Vec2R.length_rotate, h]
    exact one_ne_zero

/-- Witness for C6: the player looking along `(1,0)` keeps a unit look
direction after one rotation update. -/
theorem look_dir_unit_invariant_witness :
    ((([0] : List ℝ).foldl (fun pl θ => pl.update_player_look_dir θ)
        (⟨⟨0, 0⟩, ⟨1, 0⟩⟩ : Player)).look_dir).length = 1 :=
  look_dir_unit_invariant ⟨⟨0, 0⟩, ⟨1, 0⟩⟩ length_unit_x [0]

/-! ## Claim C7: opposite intents cancel -/

/-- Claim C7: in one `Moves::update_player` tick, active `up` and `down`
intents (with `left`/`right` inactive) cancel to zero net translation, and
active `clock` and `anti_clock` intents cancel to a zero angular delta, so the
look direction only undergoes the final renormalization (and is unchanged when
it was a unit vector). -/
theorem moves_cancellation (m : Moves) (p : Player) :
    (m.up = true → m.down = true → m.left = false → m.right = false →
      (m.update_player p).pos = p.pos) ∧
    (m.clock = true → m.anti_clock = true →
      (m.update_player p).look_dir = p.look_dir.normalize ∧
      (p.look_dir.length = 1 → (m.update_player p).look_dir = p.look_dir)) := by
  constructor
  · intro hu hd hl hr
    simp only [Moves.update_player, hu, hd, hl, hr, Player.update_player_pos,
      Player.update_player_look_dir, if_true, Bool.false_eq_true, if_false]
    apply Vec2R.ext <;>
      simp [Vec2R.add_comps, Vec2R.sub_comps, Vec2R.mul_scalar_def]
  · intro hc ha
    constructor
    · simp [Moves.update_player, hc, ha, Player.update_player_pos,
        Player.update_player_look_dir, Vec2R.rotate_zero]
    · intro hlen
      simp [Moves.update_player, hc, ha, Player.update_player_pos,
        Player.update_player_look_dir, Vec2R.rotate_zero,
        Vec2R.normalize_of_length_one _ hlen]

/-- Witness for C7: with all of `up`, `down`, `clock`, `anti_clock` pressed
(and `left`, `right` released), one tick leaves both the position and the unit
look direction of the player unchanged. -/
theorem moves_cancellation_witness :
    ((Moves.mk true true false false true true).update_player
        ⟨⟨0, 0⟩, ⟨1, 0⟩⟩).pos = (⟨0, 0⟩ : Vec2R) ∧
    ((Moves.mk true true false false true true).update_player
        ⟨⟨0, 0⟩, ⟨1, 0⟩⟩).look_dir = (⟨1, 0⟩ : Vec2R) :=
  ⟨(moves_cancellation (Moves.mk true true false false true true)
      ⟨⟨0, 0⟩, ⟨1, 0⟩⟩).1 rfl rfl rfl rfl,
   ((moves_cancellation (Moves.mk true true false false true true)
      ⟨⟨0, 0⟩, ⟨1, 0⟩⟩).2 rfl rfl).2 length_unit_x⟩

/-- Two distinct points have a difference of nonzero length. -/
lemma Vec2R.length_sub_ne_zero {s e : Vec2R} (h : s ≠ e) : (e - s).length ≠ 0 := by
  rw [Ne, Vec2R.length_eq_zero_iff]
  rintro ⟨hx, hy⟩
  simp only [Vec2R.sub_comps, sub_eq_zero] at hx hy
  exact h (Vec2R.ext hx.symm hy.symm)

/-- For distinct endpoints, the far endpoint of a constructed boundary is the
second argument: `origin + length * dir = start + (end - start) = end`. -/
lemma boundaryR_new_endpoint {s e : Vec2R} (h : s ≠ e) :
    (BoundaryR.new s e).endpoint = some e := by
  have hne := Vec2R.length_sub_ne_zero h
  show BoundaryR.endpoint ⟨s, normalizeF (e - s), (e - s).length⟩ = some e
  unfold normalizeF FR.div
  rw [if_neg hne, if_neg hne]
  show some (s + (e - s).length * (⟨(e - s).x / (e - s).length,
      (e - s).y / (e - s).length⟩ : Vec2R)) = some e
  congr 1
  apply Vec2R.ext
  · show s.x + (e - s).length * ((e - s).x / (e - s).length) = e.x
    rw [mul_comm, div_mul_cancel₀ _ hne]
    show s.x + (e.x - s.x) = e.x
    ring
  · show s.y + (e - s).length * ((e - s).y / (e - s).length) = e.y
    rw [mul_comm, div_mul_cancel₀ _ hne]
    show s.y + (e.y - s.y) = e.y
    ring

/-! ## Claim C2: `Boundary::new` and degenerate input -/

/-- Counterexample to C2: at `start == end` the source does not fail or
abort; `Boundary::new((0,0),(0,0))` silently returns a boundary of length `0`
whose direction components are the `NaN` of `0.0 / 0.0`. -/
theorem boundary_new_degenerate_nan :
    (BoundaryR.new ⟨0, 0⟩ ⟨0, 0⟩).dir = ⟨FR.nan, FR.nan⟩ ∧
    (BoundaryR.new ⟨0, 0⟩ ⟨0, 0⟩).length = 0 := by
  have h0 : ((⟨0, 0⟩ : Vec2R) - ⟨0, 0⟩) = (⟨0, 0⟩ : Vec2R) := by
    apply Vec2R.ext <;> simp [Vec2R.sub_comps]
  have hlen : ((⟨0, 0⟩ : Vec2R) - ⟨0, 0⟩).length = 0 := by
    rw [h0]
    unfold Vec2R.length
    norm_num [Real.sqrt_zero]
  constructor
  · show normalizeF ((⟨0, 0⟩ : Vec2R) - ⟨0, 0⟩) = ⟨FR.nan, FR.nan⟩
    unfold normalizeF
    rw [hlen, h0]
    norm_num [FR.div]
  · exact hlen

/-- Claim C2 amended: `Boundary::new` never rejects its input.  It always
returns `origin = start` and `length = |end - start|`; when `start == end` it
silently constructs the degenerate boundary whose direction is the `NaN`
vector, and when `start ≠ end` the direction is the finite unit vector
`normalize(end - start)`. -/
theorem boundary_new_no_rejection (s e : Vec2R) :
    (BoundaryR.new s e).origin = s ∧
    (BoundaryR.new s e).length = (e - s).length ∧
    (s = e → (BoundaryR.new s e).dir = ⟨FR.nan, FR.nan⟩) ∧
    (s ≠ e →
      (BoundaryR.new s e).dir =
        ⟨FR.fin ((e - s).x / (e - s).length), FR.fin ((e - s).y / (e - s).length)⟩ ∧
      ((e - s).x / (e - s).length) ^ 2 + ((e - s).y / (e - s).length) ^ 2 = 1) := by
  refine ⟨rfl, rfl, ?_, ?_⟩
  · intro hse
    subst hse
    have h0 : s - s = (⟨0, 0⟩ : Vec2R) := by
      apply Vec2R.ext <;> simp [Vec2R.sub_comps]
    show normalizeF (s - s) = ⟨FR.nan, FR.nan⟩
    unfold normalizeF
    have hlen : (s - s).length = 0 := by
      rw [h0]
      unfold Vec2R.length
      norm_num [Real.sqrt_zero]
    rw [hlen, h0]
    norm_num [FR.div]
  · intro hse
    have hne := Vec2R.length_sub_ne_zero hse
    constructor
    · show normalizeF (e - s) = _
      unfold normalizeF FR.div
      rw [if_neg hne, if_neg hne]
    · have hN : (e - s).x ^ 2 + (e - s).y ^ 2 ≠ 0 := by
        intro h0
        apply hne
        unfold Vec2R.length
        rw [h0, Real.sqrt_zero]
      have hL : (e - s).length ^ 2 = (e - s).x ^ 2 + (e - s).y ^ 2 :=
        Real.sq_sqrt (by positivity)
      rw [div_pow, div_pow, div_add_div_same, hL, div_self hN]

/-- Witness for C2 (amended): at the concrete distinct endpoints `(0,0)` and
`(1,0)` the constructed direction is finite (no `NaN`) and has unit norm. -/
theorem boundary_new_no_rejection_witness :
    (BoundaryR.new ⟨0, 0⟩ ⟨1, 0⟩).dir =
      ⟨FR.fin (((⟨1, 0⟩ : Vec2R) - ⟨0, 0⟩).x / ((⟨1, 0⟩ : Vec2R) - ⟨0, 0⟩).length),
       FR.fin (((⟨1, 0⟩ : Vec2R) - ⟨0, 0⟩).y / ((⟨1, 0⟩ : Vec2R) - ⟨0, 0⟩).length)⟩ ∧
    (((⟨1, 0⟩ : Vec2R) - ⟨0, 0⟩).x / ((⟨1, 0⟩ : Vec2R) - ⟨0, 0⟩).length) ^ 2 +
      (((⟨1, 0⟩ : Vec2R) - ⟨0, 0⟩).y / ((⟨1, 0⟩ : Vec2R) - ⟨0, 0⟩).length) ^ 2 = 1 :=
  (boundary_new_no_rejection ⟨0, 0⟩ ⟨1, 0⟩).2.2.2
    (by simp [Vec2R.mk.injEq])

/-! ## Claim C5: the four edges built by `Boundary::from_rect` -/

/-- Counterexample to C5: for the unit rectangle with `x` and `y` ranges
`[0, 1]` the second boundary runs along `y = 0`, the minimal-`y` (bottom)
side, not along the top edge `y = 1` that the claimed order
left/top/right/bottom demands at the second position. -/
theorem from_rect_order_counterexample :
    ¬ FromRectOrderLTRB ⟨⟨0, 1⟩, ⟨0, 1⟩⟩ := by
  rintro ⟨b0, b1, b2, b3, heq, -, h1, -, -⟩
  rw [BoundaryR.from_rect] at heq
  injection heq with h0 heq
  injection heq with hb1 heq
  rcases h1 with ⟨ho, -⟩ | ⟨ho, -⟩
  · rw [← hb1] at ho
    have := congrArg Vec2R.y ho
    norm_num [BoundaryR.new] at this
  · rw [← hb1] at ho
    have := congrArg Vec2R.x ho
    norm_num [BoundaryR.new] at this

/-- Claim C5 amended: for a rectangle with `x.start < x.end` and
`y.start < y.end`, `Boundary::from_rect` returns exactly four boundaries,
each built by `Boundary::new`, spanning in order the left, bottom, right and
top edges (in the y-up convention of the host framework, where nannou's
`Rect::top()` is `y.end`; the specification's claimed order named the second
edge "top" and the fourth "bottom"). -/
theorem from_rect_edges_lbrt (rect : RectR)
    (hx : rect.x.start < rect.x.end_) (hy : rect.y.start < rect.y.end_) :
    ∃ b0 b1 b2 b3, BoundaryR.from_rect rect = [b0, b1, b2, b3] ∧
      b0.SpansSeg ⟨rect.x.start, rect.y.start⟩ ⟨rect.x.start, rect.y.end_⟩ ∧
      b1.SpansSeg ⟨rect.x.start, rect.y.start⟩ ⟨rect.x.end_, rect.y.start⟩ ∧
      b2.SpansSeg ⟨rect.x.end_, rect.y.start⟩ ⟨rect.x.end_, rect.y.end_⟩ ∧
      b3.SpansSeg ⟨rect.x.start, rect.y.end_⟩ ⟨rect.x.end_, rect.y.end_⟩ := by
  refine ⟨_, _, _, _, rfl, ?_, ?_, ?_, ?_⟩
  · exact Or.inl ⟨rfl, boundaryR_new_endpoint
      (fun hq => absurd (congrArg Vec2R.y hq) (ne_of_lt hy))⟩
  · exact Or.inl ⟨rfl, boundaryR_new_endpoint
      (fun hq => absurd (congrArg Vec2R.x hq) (ne_of_lt hx))⟩
  · exact Or.inr ⟨rfl, boundaryR_new_endpoint
      (fun hq => absurd (congrArg Vec2R.y hq) (ne_of_gt hy))⟩
  · exact Or.inr ⟨rfl, boundaryR_new_endpoint
      (fun hq => absurd (congrArg Vec2R.x hq) (ne_of_gt hx))⟩

/-- Witness for C5 (amended): the concrete unit rectangle yields the four
edges in left/bottom/right/top order. -/
theorem from_rect_edges_lbrt_witness :
    ∃ b0 b1 b2 b3, BoundaryR.from_rect ⟨⟨0, 1⟩, ⟨0, 1⟩⟩ = [b0, b1, b2, b3] ∧
      b0.SpansSeg ⟨0, 0⟩ ⟨0, 1⟩ ∧
      b1.SpansSeg ⟨0, 0⟩ ⟨1, 0⟩ ∧
      b2.SpansSeg ⟨1, 0⟩ ⟨1, 1⟩ ∧
      b3.SpansSeg ⟨0, 1⟩ ⟨1, 1⟩ :=
  from_rect_edges_lbrt ⟨⟨0, 1⟩, ⟨0, 1⟩⟩ (by norm_num) (by norm_num)

/-! ## Helper lemmas about the nearest-hit loop -/

/-- Unfolding: the loop on an empty list is the identity. -/
lemma viewRayLoop_nil (player : Player) (r : Ray) :
    viewRayLoop player r [] = r := rfl

/-- Unfolding: the loop on a cons first tests the head boundary. -/
lemma viewRayLoop_cons (player : Player) (r : Ray) (c : Boundary) (bs : List Boundary) :
    viewRayLoop player r (c :: bs) = viewRayLoop player (viewRayStep player r c) bs := rfl

/-- `intersect` reads only `origin` and `dir`, so it ignores the three
`Option` fields of the ray state. -/
lemma intersect_mk_indep (o d : Vec2) (E E' : Option Vec2) (L L' : Option ℚ)
    (U U' : Option F) (c : Boundary) (player : Player) :
    Ray.intersect ⟨o, d, E, L, U⟩ c player = Ray.intersect ⟨o, d, E', L', U'⟩ c player := rfl

/-- `rayHits` likewise ignores the three `Option` fields. -/
lemma rayHits_mk_indep (player : Player) (o d : Vec2) (E E' : Option Vec2)
    (L L' : Option ℚ) (U U' : Option F) (bs : List Boundary) :
    rayHits player ⟨o, d, E, L, U⟩ bs = rayHits player ⟨o, d, E', L', U'⟩ bs := rfl

/-- Step evaluation: a missed boundary leaves the ray unchanged. -/
lemma viewRayStep_mk_none (player : Player) (o d : Vec2) (E : Option Vec2)
    (L : Option ℚ) (U : Option F) (c : Boundary)
    (h : Ray.intersect ⟨o, d, E, L, U⟩ c player = none) :
    viewRayStep player ⟨o, d, E, L, U⟩ c = ⟨o, d, E, L, U⟩ := by
  unfold viewRayStep
  rw [h]

/-- Step evaluation: a hit with no recorded end is always recorded. -/
lemma viewRayStep_mk_fresh (player : Player) (o d : Vec2)
    (L : Option ℚ) (U : Option F) (c : Boundary) (pt : Vec2) (lum : F)
    (h : Ray.intersect ⟨o, d, none, L, U⟩ c player = some (pt, lum)) :
    viewRayStep player ⟨o, d, none, L, U⟩ c
      = ⟨o, d, some pt, some (Vec2.normSq (pt - o)), some lum⟩ := by
  unfold viewRayStep
  rw [h]

/-- Step evaluation: a strictly closer hit replaces the recorded end. -/
lemma viewRayStep_mk_closer (player : Player) (o d : Vec2) (e : Vec2)
    (L : Option ℚ) (U : Option F) (c : Boundary) (pt : Vec2) (lum : F)
    (h : Ray.intersect ⟨o, d, some e, L, U⟩ c player = some (pt, lum))
    (hlt : Vec2.normSq (pt - o) < Vec2.normSq (e - o)) :
    viewRayStep player ⟨o, d, some e, L, U⟩ c
      = ⟨o, d, some pt, some (Vec2.normSq (pt - o)), some lum⟩ := by
  unfold viewRayStep
  rw [h]
  dsimp only
  rw [if_pos hlt]

/-- Step evaluation: a hit no closer than the recorded end is discarded. -/
lemma viewRayStep_mk_keep (player : Player) (o d : Vec2) (e : Vec2)
    (L : Option ℚ) (U : Option F) (c : Boundary) (pt : Vec2) (lum : F)
    (h : Ray.intersect ⟨o, d, some e, L, U⟩ c player = some (pt, lum))
    (hge : ¬ Vec2.normSq (pt - o) < Vec2.normSq (e - o)) :
    viewRayStep player ⟨o, d, some e, L, U⟩ c = ⟨o, d, some e, L, U⟩ := by
  unfold viewRayStep
  rw [h]
  dsimp only
  rw [if_neg hge]

/-- Two hits of the same ray at the same squared distance from its origin are
the same point with the same luminosity: both points lie on the ray at
parameters `lambda ≥ 0`, and equal distances force equal parameters. -/
lemma hits_equal_of_equal_dist (r : Ray) (a b : Boundary) (player : Player)
    (pa pb : Vec2) (la lb : F)
    (ha : r.intersect a player = some (pa, la))
    (hb : r.intersect b player = some (pb, lb))
    (hdist : Vec2.normSq (pa - r.origin) = Vec2.normSq (pb - r.origin)) :
    pa = pb ∧ la = lb := by
  obtain ⟨hda, hla0, -, -, -, hlae⟩ := (intersect_some_iff r a player pa la).mp ha
  obtain ⟨-, hlb0, -, -, -, hlbe⟩ := (intersect_some_iff r b player pb lb).mp hb
  have hpa := hit_point_on_ray r a player pa la ha
  have hpb := hit_point_on_ray r b player pb lb hb
  have key : ∀ lam : ℚ,
      Vec2.normSq ((r.origin + lam * r.dir) - r.origin) = lam ^ 2 * Vec2.normSq r.dir := by
    intro lam
    show ((r.origin.x + lam * r.dir.x) - r.origin.x) ^ 2 +
        ((r.origin.y + lam * r.dir.y) - r.origin.y) ^ 2
      = lam ^ 2 * (r.dir.x ^ 2 + r.dir.y ^ 2)
    ring
  have hdir : Vec2.normSq r.dir ≠ 0 := by
    intro h0
    apply hda
    have hx : r.dir.x ^ 2 = 0 := by
      have h1 := sq_nonneg r.dir.x
      have h2 := sq_nonneg r.dir.y
      unfold Vec2.normSq at h0
      linarith
    have hy : r.dir.y ^ 2 = 0 := by
      have h1 := sq_nonneg r.dir.x
      have h2 := sq_nonneg r.dir.y
      unfold Vec2.normSq at h0
      linarith
    unfold Ray.determinant
    rw [sq_eq_zero_iff.mp hx, sq_eq_zero_iff.mp hy]
    ring
  have hsq : (r.lambdaParam a) ^ 2 = (r.lambdaParam b) ^ 2 := by
    have h1 := hdist
    rw [hpa, hpb, key, key] at h1
    exact mul_right_cancel₀ hdir h1
  have hlam : r.lambdaParam a = r.lambdaParam b := by
    nlinarith [hsq, hla0, hlb0]
  constructor
  · rw [hpa, hpb, hlam]
  · rw [hlae, hlbe, hlam]


/-- The step does not touch the ray's origin. -/
lemma viewRayStep_origin (player : Player) (r : Ray) (c : Boundary) :
    (viewRayStep player r c).origin = r.origin := by
  unfold viewRayStep
  split
  · split
    · split <;> rfl
    · rfl
  · rfl

/-- The step does not touch the ray's direction. -/
lemma viewRayStep_dir (player : Player) (r : Ray) (c : Boundary) :
    (viewRayStep player r c).dir = r.dir := by
  unfold viewRayStep
  split
  · split
    · split <;> rfl
    · rfl
  · rfl

/-- `intersect` depends only on the ray's origin and direction. -/
lemma intersect_congr (r1 r2 : Ray) (b : Boundary) (player : Player)
    (ho : r1.origin = r2.origin) (hd : r1.dir = r2.dir) :
    r1.intersect b player = r2.intersect b player := by
  unfold Ray.intersect Ray.kNum Ray.lambdaNum Ray.determinant
  rw [ho, hd]

/-- Generic form of `viewRayStep_mk_none` for an arbitrary state. -/
lemma viewRayStep_none' (player : Player) (r : Ray) (c : Boundary)
    (h : r.intersect c player = none) : viewRayStep player r c = r := by
  unfold viewRayStep
  rw [h]

/-- The loop body is left-commutative: testing two boundaries in either order
produces the same ray state.  The tie case (two hits at exactly equal
distance) relies on `hits_equal_of_equal_dist`: such hits are the same point
with the same luminosity. -/
lemma viewRayStep_comm (player : Player) (r : Ray) (a b : Boundary) :
    viewRayStep player (viewRayStep player r a) b =
    viewRayStep player (viewRayStep player r b) a := by
  obtain ⟨o, d, E, L, U⟩ := r
  rcases ha : Ray.intersect ⟨o, d, E, L, U⟩ a player with - | ⟨pa, la⟩ <;>
    rcases hb : Ray.intersect ⟨o, d, E, L, U⟩ b player with - | ⟨pb, lb⟩
  · rw [viewRayStep_mk_none player o d E L U a ha,
      viewRayStep_mk_none player o d E L U b hb,
      viewRayStep_mk_none player o d E L U a ha]
  · rw [viewRayStep_mk_none player o d E L U a ha]
    have hia : (viewRayStep player ⟨o, d, E, L, U⟩ b).intersect a player = none := by
      rw [intersect_congr _ ⟨o, d, E, L, U⟩ a player
        (viewRayStep_origin player _ b) (viewRayStep_dir player _ b)]
      exact ha
    rw [viewRayStep_none' player _ a hia]
  · rw [viewRayStep_mk_none player o d E L U b hb]
    have hib : (viewRayStep player ⟨o, d, E, L, U⟩ a).intersect b player = none := by
      rw [intersect_congr _ ⟨o, d, E, L, U⟩ b player
        (viewRayStep_origin player _ a) (viewRayStep_dir player _ a)]
      exact hb
    rw [viewRayStep_none' player _ b hib]
  · rcases E with - | e
    · rw [viewRayStep_mk_fresh player o d L U a pa la ha,
        viewRayStep_mk_fresh player o d L U b pb lb hb]
      have hb1 : Ray.intersect ⟨o, d, some pa, some (Vec2.normSq (pa - o)), some la⟩
          b player = some (pb, lb) := hb
      have ha1 : Ray.intersect ⟨o, d, some pb, some (Vec2.normSq (pb - o)), some lb⟩
          a player = some (pa, la) := ha
      by_cases h1 : Vec2.normSq (pb - o) < Vec2.normSq (pa - o)
      · rw [viewRayStep_mk_closer player o d pa _ _ b pb lb hb1 h1,
          viewRayStep_mk_keep player o d pb _ _ a pa la ha1 (lt_asymm h1)]
      · by_cases h2 : Vec2.normSq (pa - o) < Vec2.normSq (pb - o)
        · rw [viewRayStep_mk_keep player o d pa _ _ b pb lb hb1 h1,
            viewRayStep_mk_closer player o d pb _ _ a pa la ha1 h2]
        · have heq : Vec2.normSq (pa - o) = Vec2.normSq (pb - o) :=
            le_antisymm (not_lt.mp h1) (not_lt.mp h2)
          obtain ⟨hpe, hle⟩ := hits_equal_of_equal_dist ⟨o, d, none, L, U⟩ a b player
            pa pb la lb ha hb heq
          rw [viewRayStep_mk_keep player o d pa _ _ b pb lb hb1 h1,
            viewRayStep_mk_keep player o d pb _ _ a pa la ha1 h2,
            hpe, hle]
    · by_cases hA : Vec2.normSq (pa - o) < Vec2.normSq (e - o)
      · by_cases hB : Vec2.normSq (pb - o) < Vec2.normSq (e - o)
        · rw [viewRayStep_mk_closer player o d e L U a pa la ha hA,
            viewRayStep_mk_closer player o d e L U b pb lb hb hB]
          have hb1 : Ray.intersect ⟨o, d, some pa, some (Vec2.normSq (pa - o)), some la⟩
              b player = some (pb, lb) := hb
          have ha1 : Ray.intersect ⟨o, d, some pb, some (Vec2.normSq (pb - o)), some lb⟩
              a player = some (pa, la) := ha
          by_cases h1 : Vec2.normSq (pb - o) < Vec2.normSq (pa - o)
          · rw [viewRayStep_mk_closer player o d pa _ _ b pb lb hb1 h1,
              viewRayStep_mk_keep player o d pb _ _ a pa la ha1 (lt_asymm h1)]
          · by_cases h2 : Vec2.normSq (pa - o) < Vec2.normSq (pb - o)
            · rw [viewRayStep_mk_keep player o d pa _ _ b pb lb hb1 h1,
                viewRayStep_mk_closer player o d pb _ _ a pa la ha1 h2]
            · have heq : Vec2.normSq (pa - o) = Vec2.normSq (pb - o) :=
                le_antisymm (not_lt.mp h1) (not_lt.mp h2)
              obtain ⟨hpe, hle⟩ := hits_equal_of_equal_dist ⟨o, d, some e, L, U⟩ a b player
                pa pb la lb ha hb heq
              rw [viewRayStep_mk_keep player o d pa _ _ b pb lb hb1 h1,
                viewRayStep_mk_keep player o d pb _ _ a pa la ha1 h2,
                hpe, hle]
        · rw [viewRayStep_mk_closer player o d e L U a pa la ha hA,
            viewRayStep_mk_keep player o d e L U b pb lb hb hB,
            viewRayStep_mk_closer player o d e L U a pa la ha hA]
          have hb1 : Ray.intersect ⟨o, d, some pa, some (Vec2.normSq (pa - o)), some la⟩
              b player = some (pb, lb) := hb
          have hnb : ¬ Vec2.normSq (pb - o) < Vec2.normSq (pa - o) :=
            fun hcon => hB (hcon.trans hA)
          rw [viewRayStep_mk_keep player o d pa _ _ b pb lb hb1 hnb]
      · by_cases hB : Vec2.normSq (pb - o) < Vec2.normSq (e - o)
        · rw [viewRayStep_mk_keep player o d e L U a pa la ha hA,
            viewRayStep_mk_closer player o d e L U b pb lb hb hB]
          have ha1 : Ray.intersect ⟨o, d, some pb, some (Vec2.normSq (pb - o)), some lb⟩
              a player = some (pa, la) := ha
          have hna : ¬ Vec2.normSq (pa - o) < Vec2.normSq (pb - o) :=
            fun hcon => hA (hcon.trans hB)
          rw [viewRayStep_mk_keep player o d pb _ _ a pa la ha1 hna]
        · rw [viewRayStep_mk_keep player o d e L U a pa la ha hA,
            viewRayStep_mk_keep player o d e L U b pb lb hb hB,
            viewRayStep_mk_keep player o d e L U a pa la ha hA]

/-- Folding the loop body over any permutation of the boundary list gives the
same final ray state (by induction on the permutation, using
left-commutativity for the swap case). -/
lemma viewRayLoop_perm (player : Player) {bs1 bs2 : List Boundary}
    (h : bs1.Perm bs2) (r : Ray) :
    viewRayLoop player r bs1 = viewRayLoop player r bs2 := by
  induction h generalizing r with
  | nil => rfl
  | cons x h ih =>
    rw [viewRayLoop_cons, viewRayLoop_cons]
    exact ih _
  | swap x y l =>
    rw [viewRayLoop_cons, viewRayLoop_cons, viewRayLoop_cons, viewRayLoop_cons,
      viewRayStep_comm]
  | trans h1 h2 ih1 ih2 => exact (ih1 r).trans (ih2 r)

/-- Unfolding `rayHits` on a missed head boundary. -/
lemma rayHits_cons_none (player : Player) (r : Ray) (c : Boundary)
    (bs : List Boundary) (h : r.intersect c player = none) :
    rayHits player r (c :: bs) = rayHits player r bs := by
  unfold rayHits
  rw [List.filterMap_cons, h]
  rfl

/-- Unfolding `rayHits` on a hit head boundary. -/
lemma rayHits_cons_some (player : Player) (r : Ray) (c : Boundary)
    (bs : List Boundary) (pt : Vec2) (lum : F)
    (h : r.intersect c player = some (pt, lum)) :
    rayHits player r (c :: bs) = pt :: rayHits player r bs := by
  unfold rayHits
  rw [List.filterMap_cons, h]
  rfl

/-- Running the loop from a state whose recorded end is `e` (with the
matching recorded squared length) ends in a recorded end that is no farther
than `e`, no farther than every hit, and is either `e` itself or one of the
hits; the recorded squared length matches the recorded end throughout. -/
lemma viewRayLoop_min_incumbent (player : Player) (o d : Vec2) (bs : List Boundary) :
    ∀ (e : Vec2) (U : Option F),
    ∃ p U', viewRayLoop player ⟨o, d, some e, some (Vec2.normSq (e - o)), U⟩ bs
        = ⟨o, d, some p, some (Vec2.normSq (p - o)), U'⟩ ∧
      Vec2.normSq (p - o) ≤ Vec2.normSq (e - o) ∧
      (∀ q ∈ rayHits player ⟨o, d, some e, some (Vec2.normSq (e - o)), U⟩ bs,
        Vec2.normSq (p - o) ≤ Vec2.normSq (q - o)) ∧
      (p = e ∨ p ∈ rayHits player ⟨o, d, some e, some (Vec2.normSq (e - o)), U⟩ bs) := by
  induction bs with
  | nil =>
    intro e U
    refine ⟨e, U, rfl, le_rfl, ?_, Or.inl rfl⟩
    intro q hq
    cases hq
  | cons c bs ih =>
    intro e U
    rcases hc : Ray.intersect ⟨o, d, some e, some (Vec2.normSq (e - o)), U⟩ c player
        with - | ⟨pc, lc⟩
    · rw [viewRayLoop_cons, viewRayStep_mk_none player o d _ _ _ c hc,
        rayHits_cons_none player _ c bs hc]
      exact ih e U
    · by_cases hlt : Vec2.normSq (pc - o) < Vec2.normSq (e - o)
      · rw [viewRayLoop_cons, viewRayStep_mk_closer player o d e _ _ c pc lc hc hlt,
          rayHits_cons_some player _ c bs pc lc hc]
        obtain ⟨p, U', hloop, hle, hmin, hmem⟩ := ih pc (some lc)
        refine ⟨p, U', hloop, hle.trans hlt.le, ?_, ?_⟩
        · intro q hq
          rcases List.mem_cons.mp hq with rfl | hq'
          · exact hle
          · exact hmin q hq'
        · right
          rcases hmem with rfl | hm
          · exact List.mem_cons_self _ _
          · exact List.mem_cons_of_mem _ hm
      · rw [viewRayLoop_cons, viewRayStep_mk_keep player o d e _ _ c pc lc hc hlt,
          rayHits_cons_some player _ c bs pc lc hc]
        obtain ⟨p, U', hloop, hle, hmin, hmem⟩ := ih e U
        refine ⟨p, U', hloop, hle, ?_, ?_⟩
        · intro q hq
          rcases List.mem_cons.mp hq with rfl | hq'
          · exact hle.trans (not_lt.mp hlt)
          · exact hmin q hq'
        · rcases hmem with rfl | hm
          · exact Or.inl rfl
          · exact Or.inr (List.mem_cons_of_mem _ hm)

/-- Running the loop from a fresh state (no recorded end): either no boundary
is hit and the state is returned unchanged, or the final recorded end is a
hit of minimal squared distance and the recorded squared length matches it. -/
lemma viewRayLoop_fresh (player : Player) (o d : Vec2) (bs : List Boundary) :
    ∀ (L : Option ℚ) (U : Option F),
    (viewRayLoop player ⟨o, d, none, L, U⟩ bs = ⟨o, d, none, L, U⟩ ∧
      rayHits player ⟨o, d, none, L, U⟩ bs = []) ∨
    (∃ p U', viewRayLoop player ⟨o, d, none, L, U⟩ bs
        = ⟨o, d, some p, some (Vec2.normSq (p - o)), U'⟩ ∧
      p ∈ rayHits player ⟨o, d, none, L, U⟩ bs ∧
      ∀ q ∈ rayHits player ⟨o, d, none, L, U⟩ bs,
        Vec2.normSq (p - o) ≤ Vec2.normSq (q - o)) := by
  induction bs with
  | nil => intro L U; exact Or.inl ⟨rfl, rfl⟩
  | cons c bs ih =>
    intro L U
    rcases hc : Ray.intersect ⟨o, d, none, L, U⟩ c player with - | ⟨pc, lc⟩
    · rw [viewRayLoop_cons, viewRayStep_mk_none player o d _ _ _ c hc,
        rayHits_cons_none player _ c bs hc]
      exact ih L U
    · rw [viewRayLoop_cons, viewRayStep_mk_fresh player o d L U c pc lc hc,
        rayHits_cons_some player _ c bs pc lc hc]
      obtain ⟨p, U', hloop, hle, hmin, hmem⟩ :=
        viewRayLoop_min_incumbent player o d bs pc (some lc)
      right
      refine ⟨p, U', hloop, ?_, ?_⟩
      · rcases hmem with rfl | hm
        · exact List.mem_cons_self _ _
        · exact List.mem_cons_of_mem _ hm
      · intro q hq
        rcases List.mem_cons.mp hq with rfl | hq'
        · exact hle
        · exact hmin q hq'

/-! ## Claim C4: nearest-hit selection is order-independent -/

/-- Claim C4: for every ray (with no end recorded yet, as `Ray::new` builds
it) and every list of boundaries, running the nearest-hit loop of `view` over
any permutation of the list yields the same final ray state (in particular
the same `end` and recorded length); that final `end`, when present, is a
valid hit of minimal distance from the ray origin among all hits, with the
recorded (squared) length equal to its (squared) distance, and it is absent
exactly when there is no hit.  (Distances are compared via their squares; see
the header comment.) -/
theorem nearest_hit_order_independent
    (player : Player) (r : Ray) (bs1 bs2 : List Boundary)
    (hperm : bs1.Perm bs2) (hfresh : r.end_ = none) :
    viewRayLoop player r bs1 = viewRayLoop player r bs2 ∧
    (∀ p, (viewRayLoop player r bs1).end_ = some p →
        p ∈ rayHits player r bs1 ∧
        (viewRayLoop player r bs1).lengthSq = some (Vec2.normSq (p - r.origin)) ∧
        ∀ q ∈ rayHits player r bs1,
          Vec2.normSq (p - r.origin) ≤ Vec2.normSq (q - r.origin)) ∧
    ((viewRayLoop player r bs1).end_ = none → rayHits player r bs1 = []) := by
  obtain ⟨o, d, E, L, U⟩ := r
  have hE : E = none := hfresh
  subst hE
  refine ⟨viewRayLoop_perm player hperm _, ?_, ?_⟩
  · intro p hp
    rcases viewRayLoop_fresh player o d bs1 L U with ⟨hl, -⟩ | ⟨p', U', hloop, hmem, hmin⟩
    · rw [hl] at hp
      exact absurd hp (by simp)
    · rw [hloop] at hp
      have hpp : p' = p := Option.some.inj hp
      subst hpp
      refine ⟨hmem, ?_, hmin⟩
      rw [hloop]
  · intro hnone
    rcases viewRayLoop_fresh player o d bs1 L U with ⟨-, hh⟩ | ⟨p', U', hloop, -, -⟩
    · exact hh
    · rw [hloop] at hnone
      exact absurd hnone (by simp)

/-- Witness for C4: a fresh ray along the x axis against two parallel
vertical walls at `x = 5` and `x = 2`, tested in both orders, ends in the
same state. -/
theorem nearest_hit_order_independent_witness :
    viewRayLoop ⟨⟨0, 0⟩, ⟨1, 0⟩⟩ ⟨⟨0, 0⟩, ⟨1, 0⟩, none, none, none⟩
        [⟨⟨5, -1⟩, ⟨0, 1⟩, 3⟩, ⟨⟨2, -1⟩, ⟨0, 1⟩, 3⟩] =
    viewRayLoop ⟨⟨0, 0⟩, ⟨1, 0⟩⟩ ⟨⟨0, 0⟩, ⟨1, 0⟩, none, none, none⟩
        [⟨⟨2, -1⟩, ⟨0, 1⟩, 3⟩, ⟨⟨5, -1⟩, ⟨0, 1⟩, 3⟩] :=
  (nearest_hit_order_independent ⟨⟨0, 0⟩, ⟨1, 0⟩⟩ ⟨⟨0, 0⟩, ⟨1, 0⟩, none, none, none⟩
      _ _ (List.Perm.swap _ _ []) rfl).1

/-! ## Claim C10: the three optional fields stay consistent -/

/-- One loop iteration preserves consistency of the optional fields. -/
lemma viewRayStep_consistent (player : Player) (r : Ray) (b : Boundary)
    (hr : r.Consistent) : (viewRayStep player r b).Consistent := by
  obtain ⟨o, d, E, L, U⟩ := r
  rcases hc : Ray.intersect ⟨o, d, E, L, U⟩ b player with - | ⟨pt, lum⟩
  · rw [viewRayStep_mk_none player o d E L U b hc]
    exact hr
  · rcases E with - | e
    · rw [viewRayStep_mk_fresh player o d L U b pt lum hc]
      exact Or.inr ⟨pt, lum, rfl, rfl, rfl⟩
    · by_cases hlt : Vec2.normSq (pt - o) < Vec2.normSq (e - o)
      · rw [viewRayStep_mk_closer player o d e L U b pt lum hc hlt]
        exact Or.inr ⟨pt, lum, rfl, rfl, rfl⟩
      · rw [viewRayStep_mk_keep player o d e L U b pt lum hc hlt]
        exact hr

/-- Claim C10: a fresh ray starts with `end`, `length` and `luminosity` all
unset, and the nearest-hit loop keeps the three fields consistent at every
point: they are all unset or all set together, and when set the recorded
(squared) length equals the (squared) Euclidean distance from the ray origin
to the recorded end.  (Instantiating the boundary list with any prefix gives
the invariant at every intermediate point of the loop.) -/
theorem ray_optional_fields_consistent
    (origin dir : Vec2) (player : Player) (r : Ray) (bs : List Boundary) :
    (Ray.new origin dir).Consistent ∧
    (r.Consistent → (viewRayLoop player r bs).Consistent) := by
  refine ⟨Or.inl ⟨rfl, rfl, rfl⟩, ?_⟩
  induction bs generalizing r with
  | nil => exact fun hr => hr
  | cons b bs ih =>
    intro hr
    rw [viewRayLoop_cons]
    exact ih _ (viewRayStep_consistent player r b hr)

/-- Witness for C10: the loop run from a fresh ray over one concrete wall
ends in a consistent state. -/
theorem ray_optional_fields_consistent_witness :
    Ray.Consistent (viewRayLoop ⟨⟨0, 0⟩, ⟨1, 0⟩⟩ (Ray.new ⟨0, 0⟩ ⟨1, 0⟩)
      [⟨⟨5, -1⟩, ⟨0, 1⟩, 3⟩]) :=
  (ray_optional_fields_consistent ⟨0, 0⟩ ⟨1, 0⟩ ⟨⟨0, 0⟩, ⟨1, 0⟩⟩
      (Ray.new ⟨0, 0⟩ ⟨1, 0⟩) [⟨⟨5, -1⟩, ⟨0, 1⟩, 3⟩]).2
    ((ray_optional_fields_consistent ⟨0, 0⟩ ⟨1, 0⟩ ⟨⟨0, 0⟩, ⟨1, 0⟩⟩
      (Ray.new ⟨0, 0⟩ ⟨1, 0⟩) [⟨⟨5, -1⟩, ⟨0, 1⟩, 3⟩]).1)
